import Mathlib

/-!
Verification development for the grapheme-aware text-buffer-and-cursor core
(src/editor.rs and src/graphemes.rs).

Embedding conventions:
* The rope buffer is embedded as a `List Char` of Unicode scalar values.
  The byte/char distinction of the source is ropey-internal: every public
  function of src/graphemes.rs converts char indices to byte offsets, steps,
  and converts back, and all boundaries returned by the segmentation cursor
  are scalar-aligned, so the char-level embedding is faithful to the public
  API.  Char-range insert/remove and the line/char index conversions of the
  external ropey crate are modelled from the spec (section 3: line boundary
  is a line feed, an optional preceding carriage return belonging to the
  same break).
* Grapheme segmentation (the external unicode_segmentation crate) is
  modelled from the spec: boundaries of the Unicode extended grapheme
  cluster rule (UAX #29), restricted to the break-property classes this
  development exercises (CR, LF, Control, Extend, ZWJ,
  Extended_Pictographic, Other) with the break rules GB3, GB4, GB5, GB9,
  GB11 and GB999.
* The debug-assertion blocks of src/editor.rs (`cfg(debug_assertions)`) and
  the `trace` logging have no effect on the resulting state and are not
  embedded.
-/

namespace Mters

/-- Modelled from the spec: grapheme-cluster break property classes of the
Unicode extended grapheme cluster rule (UAX #29); the segmentation engine in
the source is the external unicode_segmentation crate. -/
inductive GBP
  | CR
  | LF
  | Control
  | Extend
  | ZWJ
  | ExtPict
  | Other
deriving DecidableEq

/-- Modelled from the spec: break-property classification for the scalar
ranges this development exercises (combining marks, variation selectors,
zero-width joiner, a representative pictographic block, controls). -/
def gbp (c : Char) : GBP :=
  if c = '\r' then .CR
  else if c = '\n' then .LF
  else if c.toNat < 0x20 ∨ c.toNat = 0x7F ∨ (0x80 ≤ c.toNat ∧ c.toNat ≤ 0x9F) ∨
          c.toNat = 0x200B then .Control
  else if c.toNat = 0x200D then .ZWJ
  else if (0x300 ≤ c.toNat ∧ c.toNat ≤ 0x36F) ∨ (0x1AB0 ≤ c.toNat ∧ c.toNat ≤ 0x1AFF) ∨
          (0x1DC0 ≤ c.toNat ∧ c.toNat ≤ 0x1DFF) ∨ (0x20D0 ≤ c.toNat ∧ c.toNat ≤ 0x20FF) ∨
          (0xFE00 ≤ c.toNat ∧ c.toNat ≤ 0xFE0F) ∨ c.toNat = 0x200C then .Extend
  else if (0x2600 ≤ c.toNat ∧ c.toNat ≤ 0x27BF) ∨
          (0x1F000 ≤ c.toNat ∧ c.toNat ≤ 0x1FAFF) then .ExtPict
  else .Other

/-- Scalar at index `i` (total; callers establish the index is in range,
mirroring ropey's `Rope::char` whose callers guard the range). -/
def charAt (l : List Char) (i : Nat) : Char :=
  l.getD i (Char.ofNat 0)

/-- GB11 lookback: walking left from the scalar before a zero-width joiner
(`rev` lists the scalars before it, nearest first), skip `Extend` scalars and
require an `Extended_Pictographic` scalar. -/
def gb11Lookback : List Char → Bool
  | [] => false
  | c :: rest =>
    match gbp c with
    | .Extend => gb11Lookback rest
    | .ExtPict => true
    | _ => false

/-- Modelled from the spec: is there an extended-grapheme-cluster break
between the scalar `a` and the scalar `b`, where `rev` lists the scalars
before `a`, nearest first (rules GB3, GB4, GB5, GB9, GB11, GB999)? -/
def breakBetween (rev : List Char) (a b : Char) : Bool :=
  if gbp a = .CR ∧ gbp b = .LF then false
  else if gbp a = .CR ∨ gbp a = .LF ∨ gbp a = .Control then true
  else if gbp b = .CR ∨ gbp b = .LF ∨ gbp b = .Control then true
  else if gbp b = .Extend ∨ gbp b = .ZWJ then false
  else if gbp a = .ZWJ ∧ gbp b = .ExtPict then ¬ gb11Lookback rev
  else true

/-- Is scalar position `i` of the buffer a grapheme-cluster boundary?  The
start and the end of the buffer are boundaries (rules GB1/GB2). -/
def isBreak (l : List Char) (i : Nat) : Bool :=
  if i = 0 then true
  else if l.length ≤ i then true
  else
    match (l.take i).reverse with
    | [] => true
    | a :: rev => breakBetween rev a (charAt l i)

/-- Fueled upward scan for the next boundary at or after `j`; the fuel of
every call site covers the whole remaining buffer, and the buffer end is
always a boundary, so the fuel never runs out before an answer. -/
def findFromAux (l : List Char) : Nat → Nat → Nat
  | 0, _ => l.length
  | fuel + 1, j =>
    if l.length ≤ j then l.length
    else if isBreak l j then j
    else findFromAux l fuel (j + 1)

/-- Embeds `next_grapheme_abs_char` / the forward direction of
`step_grapheme_bound`: the next grapheme boundary strictly after `i`, or the
buffer length when already at (or past) the end. -/
def nextBoundary (l : List Char) (i : Nat) : Nat :=
  if l.length ≤ i then l.length
  else findFromAux l (l.length - i) (i + 1)

/-- Downward scan for the nearest boundary at or below `j` (position 0 is
always a boundary). -/
def findDown (l : List Char) : Nat → Nat
  | 0 => 0
  | j + 1 => if isBreak l (j + 1) then j + 1 else findDown l j

/-- Embeds `prev_grapheme_abs_char` / the backward direction of
`step_grapheme_bound`: the previous grapheme boundary strictly before `i`,
or 0 when at the start. -/
def prevBoundary (l : List Char) (i : Nat) : Nat :=
  findDown l (i - 1)

/-- Number of grapheme clusters of a standalone scalar sequence: one per
boundary in `[1, length]`.  Embeds
`UnicodeSegmentation::graphemes(s, true).count()`. -/
def graphemeCount (s : List Char) : Nat :=
  (List.range s.length).countP (fun j => isBreak s (j + 1))

/-! ## Line and edit model of the buffer (external ropey capability) -/

/-- Modelled from the spec: char index of the start of line `row` — the
position just after the `row`-th line feed (clamped to the buffer length,
which is also the value for the index one past the last line). -/
def lineToChar : List Char → Nat → Nat
  | _, 0 => 0
  | [], _ + 1 => 0
  | c :: rest, row + 1 =>
    if c = '\n' then 1 + lineToChar rest row else 1 + lineToChar rest (row + 1)

/-- Modelled from the spec: index of the line containing char position `ci` —
the number of line feeds strictly before `ci`. -/
def charToLine (l : List Char) (ci : Nat) : Nat :=
  (l.take ci).count '\n'

/-- Modelled from the spec: number of lines (number of line feeds plus one). -/
def lenLines (l : List Char) : Nat :=
  l.count '\n' + 1

/-- The scalars of line `row`, including its terminating line break, as
returned by ropey's `Rope::line`. -/
def lineSlice (l : List Char) (row : Nat) : List Char :=
  (l.take (lineToChar l (row + 1))).drop (lineToChar l row)

/-- Char-range insertion at index `p` (ropey `Rope::insert`). -/
def insertAt (l : List Char) (p : Nat) (c : Char) : List Char :=
  l.take p ++ c :: l.drop p

/-- Char-range removal of `[s, e)` (ropey `Rope::remove`). -/
def removeRange (l : List Char) (s e : Nat) : List Char :=
  l.take s ++ l.drop e

/-! ## Derived operations of src/graphemes.rs -/

/-- Fueled walking loop of `line_gcount` in src/graphemes.rs: repeatedly step
to the next boundary `nb`; stop without counting when `nb` passes the line
end `eb`, count and stop when `nb` reaches it, otherwise count and continue.
Each step strictly advances, so fuel covering the line suffices. -/
def gcountAux (l : List Char) (eb : Nat) : Nat → Nat → Nat → Nat
  | 0, _, count => count
  | fuel + 1, b, count =>
    let nb := nextBoundary l b
    if eb < nb then count
    else if nb = eb then count + 1
    else gcountAux l eb fuel nb (count + 1)

/-- Embeds `line_gcount` of src/graphemes.rs: count grapheme clusters on line
`row` (the span from the line start to the start of the next line, so a
terminating line break is part of the count) by walking boundaries. -/
def lineGcount (l : List Char) (row : Nat) : Nat :=
  let sb := lineToChar l row
  let eb := lineToChar l (row + 1)
  if sb = eb then 0
  else gcountAux l eb (l.length + 1) sb 0

/-- Walking loop of `line_gcol_to_abs_char`: take `g` boundary steps from
`b`, stopping at the line end `eb` if a step would reach or pass it. -/
def walkAux (l : List Char) (eb : Nat) : Nat → Nat → Nat
  | 0, b => b
  | g + 1, b =>
    let nb := nextBoundary l b
    if eb ≤ nb then eb
    else walkAux l eb g nb

/-- Embeds `line_gcol_to_abs_char` of src/graphemes.rs: convert
`(row, gcol)` to an absolute char index, clamping `gcol` to the line's
grapheme count. -/
def lineGcolToAbsChar (l : List Char) (row gcol : Nat) : Nat :=
  let sb := lineToChar l row
  let eb := lineToChar l (row + 1)
  let gc := lineGcount l row
  walkAux l eb (min gcol gc) sb

/-- Counting loop of `abs_char_to_line_gcol`: count boundary steps from the
line start that land at or before the target `tb`; a step that cannot
advance, or that passes `tb`, stops the count (this snaps a mid-cluster
target down to the start of its cluster). -/
def gcolAux (l : List Char) (tb : Nat) : Nat → Nat → Nat → Nat
  | 0, _, g => g
  | fuel + 1, b, g =>
    let nb := nextBoundary l b
    if nb ≤ b then g
    else if tb < nb then g
    else if nb = tb then g + 1
    else gcolAux l tb fuel nb (g + 1)

/-- Embeds `abs_char_to_line_gcol` of src/graphemes.rs: convert an absolute
char index to `(row, gcol)`; an empty line yields column 0, and the target
is clamped into the line span. -/
def absCharToLineGcol (l : List Char) (ci : Nat) : Nat × Nat :=
  let row := charToLine l ci
  let sb := lineToChar l row
  let eb := lineToChar l (row + 1)
  if sb = eb then (row, 0)
  else
    let tb := max sb (min ci eb)
    (row, gcolAux l tb (l.length + 1) sb 0)

/-! ## The editor state machine of src/editor.rs -/

/-- Editing mode (src/editor.rs `EditorMode`); `handle_command` never reads
or writes it. -/
inductive EditorMode
  | Normal
  | Insert
deriving DecidableEq

/-- The commands handled by `Editor::handle_command` (the spec's section 6
command set).  The input layer that produces them is outside the core. -/
inductive EditorCommand
  | MoveUp
  | MoveDown
  | MoveLeft
  | MoveRight
  | InsertChar (c : Char)
  | Backspace
  | Delete
  | Quit
  | Unknown
deriving DecidableEq

/-- The editor state of src/editor.rs.  The `pending` field of the source
(input-layer data of externally defined key type, never read or written by
`handle_command`) is not embedded. -/
structure Editor where
  cursor_row : Nat
  cursor_gcol : Nat
  desired_gcol : Option Nat
  text : List Char
  caret_abs : Nat
  mode : EditorMode
deriving DecidableEq

/-- `Editor::new`. -/
def Editor.new : Editor :=
  { cursor_row := 0
    cursor_gcol := 0
    desired_gcol := none
    text := []
    caret_abs := 0
    mode := .Insert }

/-- `Editor::line_gcount`: grapheme-cluster count of `text.line(row)` as a
standalone string (the ropey line slice includes its terminating line
break). -/
def Editor.lineGcountEd (e : Editor) (row : Nat) : Nat :=
  graphemeCount (lineSlice e.text row)

/-- `Editor::clamp_gcol_on_row`. -/
def Editor.clampGcolOnRow (e : Editor) (row gcol : Nat) : Nat :=
  min gcol (e.lineGcountEd row)

/-- `Editor::set_cursor_from_abs_char`. -/
def Editor.setCursorFromAbsChar (e : Editor) (absChar : Nat) : Editor :=
  let rg := absCharToLineGcol e.text absChar
  { e with cursor_row := rg.1, cursor_gcol := rg.2 }

/-- `Editor::sync_visual_from_caret`. -/
def Editor.syncVisualFromCaret (e : Editor) : Editor :=
  e.setCursorFromAbsChar e.caret_abs

/-- `Editor::sync_caret_from_visual`. -/
def Editor.syncCaretFromVisual (e : Editor) : Editor :=
  { e with caret_abs := lineGcolToAbsChar e.text e.cursor_row e.cursor_gcol }

/-- `Editor::handle_command` as a pure state transition.  Each arm follows
the source line by line; the `desired_gcol.getD 0` stands for the source's
`unwrap`, whose argument was set to `some _` two lines above. -/
def handleCommand (e : Editor) (command : EditorCommand) : Editor :=
  match command with
  | .MoveLeft =>
    let here := e.caret_abs
    let prev := prevBoundary e.text here
    let e1 := { e with caret_abs := prev }
    let e2 := e1.syncVisualFromCaret
    let e3 := e2.setCursorFromAbsChar prev
    { e3 with desired_gcol := none }
  | .MoveRight =>
    let here := e.caret_abs
    let next := nextBoundary e.text here
    let e1 := { e with caret_abs := next }
    let e2 := e1.syncVisualFromCaret
    { e2 with desired_gcol := none }
  | .MoveUp =>
    if 0 < e.cursor_row then
      let e1 := { e with desired_gcol := some e.cursor_gcol }
      let e2 := { e1 with cursor_row := e1.cursor_row - 1 }
      let tgt := e2.desired_gcol.getD 0
      let e3 := { e2 with cursor_gcol := e2.clampGcolOnRow e2.cursor_row tgt }
      e3.syncCaretFromVisual
    else e
  | .MoveDown =>
    if e.cursor_row + 1 < lenLines e.text then
      let e1 := { e with desired_gcol := some e.cursor_gcol }
      let e2 := { e1 with cursor_row := e1.cursor_row + 1 }
      let tgt := e2.desired_gcol.getD 0
      let e3 := { e2 with cursor_gcol := e2.clampGcolOnRow e2.cursor_row tgt }
      e3.syncCaretFromVisual
    else e
  | .InsertChar c =>
    let here := e.caret_abs
    if c = '\n' then
      let t1 := insertAt e.text here '\n'
      let next := nextBoundary t1 here
      let e1 := { e with text := t1, caret_abs := next }
      let e2 := e1.syncVisualFromCaret
      { e2 with desired_gcol := none }
    else
      let t1 := insertAt e.text here c
      let next := nextBoundary t1 here
      let e1 := { e with text := t1, caret_abs := next }
      let e2 := e1.syncVisualFromCaret
      { e2 with desired_gcol := none }
  | .Backspace =>
    let here := e.caret_abs
    if 0 < here then
      let del : Option (Nat × Nat) :=
        if charAt e.text (here - 1) = '\n' then
          if 2 ≤ here ∧ charAt e.text (here - 2) = '\r' then some (here - 2, here)
          else some (here - 1, here)
        else if charAt e.text (here - 1) = '\r' then some (here - 1, here)
        else none
      let e1 :=
        match del with
        | some se => { e with text := removeRange e.text se.1 se.2, caret_abs := se.1 }
        | none =>
          let prev := prevBoundary e.text here
          { e with text := removeRange e.text prev here, caret_abs := prev }
      let e2 := e1.syncVisualFromCaret
      { e2 with desired_gcol := none }
    else { e with desired_gcol := none }
  | .Delete =>
    let here := e.caret_abs
    let len := e.text.length
    if here < len then
      let del : Option Nat :=
        if charAt e.text here = '\n' then some 1
        else if charAt e.text here = '\r' then
          if here + 1 < len ∧ charAt e.text (here + 1) = '\n' then some 2 else some 1
        else none
      let e1 :=
        match del with
        | some n => { e with text := removeRange e.text here (here + n) }
        | none =>
          let next := nextBoundary e.text here
          if here < next then { e with text := removeRange e.text here next }
          else if here + 1 ≤ len then { e with text := removeRange e.text here (here + 1) }
          else e
      let e2 := e1.syncVisualFromCaret
      { e2 with desired_gcol := none }
    else { e with desired_gcol := none }
  | .Quit => e
  | .Unknown => e

/-- Run a command sequence from a starting state. -/
def runCommands (e : Editor) (cmds : List EditorCommand) : Editor :=
  cmds.foldl handleCommand e

/-! ## Chunked traversal model of `step_grapheme_bound` (src/graphemes.rs)

The source loop feeds ropey chunks to the segmentation cursor and retries on
`NextChunk` / `PrevChunk` / `PreContext` requests.  The model below renders
the same traversal over an explicit chunk decomposition of the buffer: each
chunk contributes one scan window, a failed window hands over to the
neighbouring chunk (the `NextChunk`/`PrevChunk` retry; the monotone chunk
progression of the source loop is the structural descent over the chunk
list), and a window's boundary test may read scalars before the chunk start,
which the source loop resolves by the `PreContext` retry that supplies the
covering chunk. -/

/-- Fueled upward scan: least boundary position in the window
`[j, j + fuel)`. -/
def scanUpAux (l : List Char) : Nat → Nat → Option Nat
  | 0, _ => none
  | fuel + 1, j => if isBreak l j then some j else scanUpAux l fuel (j + 1)

/-- Forward chunk loop: scan the current chunk's window for a boundary
strictly after `i`; on failure either stop at the buffer end (the source's
`next_start >= total_bytes` check and its `Ok(None)` case) or move to the
next chunk. -/
def chunkedNextGo (l : List Char) (i : Nat) : Nat → List (List Char) → Nat
  | _, [] => l.length
  | cs, ch :: rest =>
    let hi := cs + ch.length
    let lo := max (i + 1) cs
    match scanUpAux l (hi - lo) lo with
    | some j => j
    | none => if l.length ≤ hi then l.length else chunkedNextGo l i hi rest

/-- Forward `step_grapheme_bound` over a chunk decomposition. -/
def chunkedNext (chunks : List (List Char)) (i : Nat) : Nat :=
  chunkedNextGo chunks.flatten i 0 chunks

/-- Fueled downward scan: greatest boundary position in the window
`(j - fuel, j]`. -/
def scanDownAux (l : List Char) : Nat → Nat → Option Nat
  | 0, _ => none
  | fuel + 1, j => if isBreak l j then some j else scanDownAux l fuel (j - 1)

/-- Backward chunk loop: scan the current chunk's window for a boundary
strictly before `i`; on failure either stop at the buffer start (the
source's `chunk_start == 0` check) or move to the previous chunk. -/
def chunkedPrevGo (l : List Char) (i : Nat) : List (List Char) → Nat → Nat
  | [], _ => 0
  | ch :: revRest, hi =>
    let cs := hi - ch.length
    let up := min (i - 1) hi
    match scanDownAux l (up - cs) up with
    | some j => j
    | none => if cs = 0 then 0 else chunkedPrevGo l i revRest cs

/-- Backward `step_grapheme_bound` over a chunk decomposition. -/
def chunkedPrev (chunks : List (List Char)) (i : Nat) : Nat :=
  chunkedPrevGo chunks.flatten i chunks.reverse chunks.flatten.length

/-! ## Basic boundary lemmas -/

theorem isBreak_zero (l : List Char) : isBreak l 0 = true := by
  simp [isBreak]

theorem isBreak_of_le {l : List Char} {i : Nat} (h : l.length ≤ i) :
    isBreak l i = true := by
  unfold isBreak
  split
  · rfl
  · simp [h]

theorem findFromAux_spec {l : List Char} :
    ∀ {fuel j : Nat}, j ≤ l.length → l.length < j + fuel →
      isBreak l (findFromAux l fuel j) = true ∧ j ≤ findFromAux l fuel j ∧
      findFromAux l fuel j ≤ l.length ∧
      ∀ m, j ≤ m → m < findFromAux l fuel j → isBreak l m = false := by
  intro fuel
  induction fuel with
  | zero => intro j hj hf; omega
  | succ fuel ih =>
    intro j hj hf
    unfold findFromAux
    by_cases hle : l.length ≤ j
    · have hj' : j = l.length := le_antisymm hj hle
      simp only [if_pos hle]
      exact ⟨isBreak_of_le le_rfl, hj, le_rfl, by omega⟩
    · simp only [if_neg hle]
      by_cases hb : isBreak l j
      · simp only [if_pos hb]
        exact ⟨hb, le_rfl, by omega, by omega⟩
      · simp only [if_neg hb]
        have hj1 : j + 1 ≤ l.length := by omega
        obtain ⟨h1, h2, h3, h4⟩ := ih hj1 (by omega)
        refine ⟨h1, by omega, h3, ?_⟩
        intro m hm1 hm2
        rcases Nat.eq_or_lt_of_le hm1 with rfl | hlt
        · simpa using hb
        · exact h4 m hlt hm2

theorem nextBoundary_spec {l : List Char} {i : Nat} (h : i < l.length) :
    isBreak l (nextBoundary l i) = true ∧ i < nextBoundary l i ∧
    nextBoundary l i ≤ l.length ∧
    ∀ m, i < m → m < nextBoundary l i → isBreak l m = false := by
  unfold nextBoundary
  simp only [if_neg (by omega : ¬ l.length ≤ i)]
  obtain ⟨h1, h2, h3, h4⟩ := @findFromAux_spec l (l.length - i) (i + 1) (by omega) (by omega)
  exact ⟨h1, by omega, h3, fun m hm1 hm2 => h4 m (by omega) hm2⟩

theorem nextBoundary_at_end {l : List Char} {i : Nat} (h : l.length ≤ i) :
    nextBoundary l i = l.length := by
  simp [nextBoundary, h]

theorem nextBoundary_gt {l : List Char} {i : Nat} (h : i < l.length) :
    i < nextBoundary l i :=
  (nextBoundary_spec h).2.1

theorem nextBoundary_le_len (l : List Char) (i : Nat) :
    nextBoundary l i ≤ l.length := by
  by_cases h : i < l.length
  · exact (nextBoundary_spec h).2.2.1
  · rw [nextBoundary_at_end (by omega)]

theorem isBreak_nextBoundary (l : List Char) (i : Nat) :
    isBreak l (nextBoundary l i) = true := by
  by_cases h : i < l.length
  · exact (nextBoundary_spec h).1
  · rw [nextBoundary_at_end (by omega)]
    exact isBreak_of_le le_rfl

theorem nextBoundary_of_isBreak {l : List Char} {i : Nat} (h : i < l.length)
    (hb : isBreak l (i + 1) = true) : nextBoundary l i = i + 1 := by
  obtain ⟨h1, h2, h3, h4⟩ := nextBoundary_spec h
  by_contra hne
  have := h4 (i + 1) (by omega) (by omega)
  simp [hb] at this

theorem findDown_spec (l : List Char) : ∀ j : Nat,
    isBreak l (findDown l j) = true ∧ findDown l j ≤ j ∧
    ∀ m, findDown l j < m → m ≤ j → isBreak l m = false := by
  intro j
  induction j with
  | zero => exact ⟨by simp [findDown, isBreak_zero], le_rfl, by omega⟩
  | succ j ih =>
    unfold findDown
    by_cases hb : isBreak l (j + 1)
    · simp only [if_pos hb]
      exact ⟨hb, le_rfl, by omega⟩
    · simp only [if_neg hb]
      obtain ⟨h1, h2, h3⟩ := ih
      refine ⟨h1, by omega, ?_⟩
      intro m hm1 hm2
      rcases Nat.eq_or_lt_of_le hm2 with rfl | hlt
      · simpa using hb
      · exact h3 m hm1 (by omega)

theorem prevBoundary_le {l : List Char} {i : Nat} (h : 0 < i) :
    prevBoundary l i < i := by
  have := (findDown_spec l (i - 1)).2.1
  unfold prevBoundary
  omega

/-! ## Scan-window lemmas for the chunk loop -/

theorem scanUpAux_some {l : List Char} :
    ∀ {fuel j k : Nat}, scanUpAux l fuel j = some k →
      isBreak l k = true ∧ j ≤ k ∧ k < j + fuel ∧
      ∀ m, j ≤ m → m < k → isBreak l m = false := by
  intro fuel
  induction fuel with
  | zero => intro j k h; simp [scanUpAux] at h
  | succ fuel ih =>
    intro j k h
    unfold scanUpAux at h
    by_cases hb : isBreak l j
    · simp only [if_pos hb, Option.some.injEq] at h
      subst h
      exact ⟨hb, le_rfl, by omega, by omega⟩
    · simp only [if_neg hb] at h
      obtain ⟨h1, h2, h3, h4⟩ := ih h
      refine ⟨h1, by omega, by omega, ?_⟩
      intro m hm1 hm2
      rcases Nat.eq_or_lt_of_le hm1 with rfl | hlt
      · simpa using hb
      · exact h4 m hlt hm2

theorem scanUpAux_none {l : List Char} :
    ∀ {fuel j : Nat}, scanUpAux l fuel j = none →
      ∀ m, j ≤ m → m < j + fuel → isBreak l m = false := by
  intro fuel
  induction fuel with
  | zero => intro j _ m hm1 hm2; omega
  | succ fuel ih =>
    intro j h m hm1 hm2
    unfold scanUpAux at h
    by_cases hb : isBreak l j
    · simp [hb] at h
    · simp only [if_neg hb] at h
      rcases Nat.eq_or_lt_of_le hm1 with rfl | hlt
      · simpa using hb
      · exact ih h m hlt (by omega)

theorem scanDownAux_some {l : List Char} :
    ∀ {fuel j k : Nat}, fuel ≤ j → scanDownAux l fuel j = some k →
      isBreak l k = true ∧ j - fuel < k ∧ k ≤ j ∧
      ∀ m, k < m → m ≤ j → isBreak l m = false := by
  intro fuel
  induction fuel with
  | zero => intro j k _ h; simp [scanDownAux] at h
  | succ fuel ih =>
    intro j k hfj h
    unfold scanDownAux at h
    by_cases hb : isBreak l j
    · simp only [if_pos hb, Option.some.injEq] at h
      subst h
      exact ⟨hb, by omega, le_rfl, by omega⟩
    · simp only [if_neg hb] at h
      obtain ⟨h1, h2, h3, h4⟩ := ih (by omega) h
      refine ⟨h1, by omega, by omega, ?_⟩
      intro m hm1 hm2
      rcases Nat.eq_or_lt_of_le hm2 with rfl | hlt
      · simpa using hb
      · exact h4 m hm1 (by omega)

theorem scanDownAux_none {l : List Char} :
    ∀ {fuel j : Nat}, fuel ≤ j → scanDownAux l fuel j = none →
      ∀ m, j - fuel < m → m ≤ j → isBreak l m = false := by
  intro fuel
  induction fuel with
  | zero => intro j _ _ m hm1 hm2; omega
  | succ fuel ih =>
    intro j hfj h m hm1 hm2
    unfold scanDownAux at h
    by_cases hb : isBreak l j
    · simp [hb] at h
    · simp only [if_neg hb] at h
      rcases Nat.eq_or_lt_of_le hm2 with rfl | hlt
      · simpa using hb
      · exact ih (by omega) h m (by omega) (by omega)

/-! ## The chunk loop agrees with the flat boundary step -/

theorem chunkedNextGo_eq {l : List Char} {i : Nat} :
    ∀ (rest : List (List Char)) (cs : Nat), l.drop cs = rest.flatten →
      cs ≤ l.length → (∀ m, i < m → m < cs → isBreak l m = false) →
      chunkedNextGo l i cs rest = nextBoundary l i := by
  intro rest
  induction rest with
  | nil =>
    intro cs hdrop hcs hH
    have hlen : l.length ≤ cs := by
      have := congrArg List.length hdrop
      simp at this
      omega
    show l.length = nextBoundary l i
    by_cases hi : i < l.length
    · obtain ⟨h1, h2, h3, h4⟩ := nextBoundary_spec hi
      by_contra hne
      have hlt : nextBoundary l i < l.length := by omega
      have := hH (nextBoundary l i) h2 (by omega)
      simp [h1] at this
    · rw [nextBoundary_at_end (by omega)]
  | cons ch rest ih =>
    intro cs hdrop hcs hH
    have hlen2 : ch.length + rest.flatten.length = l.length - cs := by
      have hdl := congrArg List.length hdrop
      simp [List.length_flatten] at hdl ⊢
      omega
    have hhi : cs + ch.length ≤ l.length := by omega
    have hdrop' : l.drop (cs + ch.length) = rest.flatten := by
      have h1 : l.drop (cs + ch.length) = (l.drop cs).drop ch.length := by
        rw [List.drop_drop]
      rw [h1, hdrop]
      simp [List.flatten_cons, List.drop_left]
    unfold chunkedNextGo
    rcases hscan : scanUpAux l (cs + ch.length - max (i + 1) cs) (max (i + 1) cs) with _ | j
    · simp only [hscan]
      have hwin := scanUpAux_none hscan
      have hH' : ∀ m, i < m → m < cs + ch.length → isBreak l m = false := by
        intro m hm1 hm2
        by_cases hmc : m < cs
        · exact hH m hm1 hmc
        · exact hwin m (by omega) (by omega)
      by_cases hend : l.length ≤ cs + ch.length
      · simp only [if_pos hend]
        show l.length = nextBoundary l i
        by_cases hi : i < l.length
        · obtain ⟨h1, h2, h3, h4⟩ := nextBoundary_spec hi
          by_contra hne
          have := hH' (nextBoundary l i) h2 (by omega)
          simp [h1] at this
        · rw [nextBoundary_at_end (by omega)]
      · simp only [if_neg hend]
        exact ih (cs + ch.length) hdrop' (by omega) hH'
    · simp only [hscan]
      obtain ⟨h1, h2, h3, h4⟩ := scanUpAux_some hscan
      have hij : i < j := by omega
      have hjlen : j < l.length := by omega
      have hi : i < l.length := by omega
      obtain ⟨n1, n2, n3, n4⟩ := nextBoundary_spec hi
      rcases Nat.lt_trichotomy j (nextBoundary l i) with hlt | heq | hgt
      · have := n4 j hij hlt
        simp [h1] at this
      · exact heq
      · exfalso
        by_cases hnb : nextBoundary l i < max (i + 1) cs
        · have := hH (nextBoundary l i) n2 (by omega)
          simp [n1] at this
        · have := h4 (nextBoundary l i) (by omega) hgt
          simp [n1] at this

theorem chunkedPrevGo_eq {l : List Char} {i : Nat} :
    ∀ (revRest : List (List Char)) (hi : Nat),
      l.take hi = revRest.reverse.flatten → hi ≤ l.length →
      (∀ m, hi < m → m < i → isBreak l m = false) →
      chunkedPrevGo l i revRest hi = prevBoundary l i := by
  intro revRest
  induction revRest with
  | nil =>
    intro hi htake hhi hH
    have hhi0 : hi = 0 := by
      have h0 := congrArg List.length htake
      rw [List.length_take] at h0
      simp only [List.reverse_nil, List.flatten_nil, List.length_nil] at h0
      omega
    subst hhi0
    obtain ⟨f1, f2, f3⟩ := findDown_spec l (i - 1)
    show 0 = prevBoundary l i
    by_contra hne
    have hpos : 0 < findDown l (i - 1) := by
      unfold prevBoundary at hne
      omega
    have hm := hH (findDown l (i - 1)) hpos (by omega)
    simp [f1] at hm
  | cons ch revRest ih =>
    intro hi htake hhi hH
    have hflat : revRest.reverse.flatten ++ ch = l.take hi := by
      rw [htake]
      simp
    have hlen2 : revRest.reverse.flatten.length + ch.length = hi := by
      have h0 := congrArg List.length hflat
      simp [List.length_flatten] at h0 ⊢
      omega
    have hcs : revRest.reverse.flatten.length = hi - ch.length := by omega
    have htake' : l.take (hi - ch.length) = revRest.reverse.flatten := by
      have h1 : l.take (hi - ch.length) = (l.take hi).take (hi - ch.length) := by
        rw [List.take_take]
        congr 1
        omega
      rw [h1, ← hflat, ← hcs, List.take_left]
    unfold chunkedPrevGo
    rcases hscan : scanDownAux l (min (i - 1) hi - (hi - ch.length)) (min (i - 1) hi) with _ | j
    · simp only [hscan]
      have hwin := scanDownAux_none (by omega) hscan
      have hH' : ∀ m, hi - ch.length < m → m < i → isBreak l m = false := by
        intro m hm1 hm2
        by_cases hup : m ≤ min (i - 1) hi
        · exact hwin m (by omega) hup
        · exact hH m (by omega) hm2
      by_cases hcs0 : hi - ch.length = 0
      · simp only [if_pos hcs0]
        show 0 = prevBoundary l i
        obtain ⟨f1, f2, f3⟩ := findDown_spec l (i - 1)
        by_contra hne
        have hpos : 0 < findDown l (i - 1) := by
          unfold prevBoundary at hne
          omega
        have hm := hH' (findDown l (i - 1)) (by omega) (by omega)
        simp [f1] at hm
      · simp only [if_neg hcs0]
        exact ih (hi - ch.length) htake' (by omega) hH'
    · simp only [hscan]
      obtain ⟨h1, h2, h3, h4⟩ := scanDownAux_some (by omega) hscan
      obtain ⟨f1, f2, f3⟩ := findDown_spec l (i - 1)
      have hji : j ≤ i - 1 := by omega
      unfold prevBoundary
      rcases Nat.lt_trichotomy j (findDown l (i - 1)) with hlt | heq | hgt
      · exfalso
        by_cases hfu : findDown l (i - 1) ≤ min (i - 1) hi
        · have := h4 (findDown l (i - 1)) hlt hfu
          simp [f1] at this
        · have := hH (findDown l (i - 1)) (by omega) (by omega)
          simp [f1] at this
      · exact heq
      · exfalso
        have := f3 j hgt hji
        simp [h1] at this

theorem chunkedNext_eq (chunks : List (List Char)) (i : Nat) :
    chunkedNext chunks i = nextBoundary chunks.flatten i := by
  unfold chunkedNext
  exact chunkedNextGo_eq chunks 0 (by simp) (by simp) (by omega)

theorem chunkedPrev_eq (chunks : List (List Char)) {i : Nat}
    (h : i ≤ chunks.flatten.length) :
    chunkedPrev chunks i = prevBoundary chunks.flatten i := by
  unfold chunkedPrev
  refine chunkedPrevGo_eq chunks.reverse chunks.flatten.length ?_ le_rfl ?_
  · simp
  · intro m hm1 hm2
    omega

/-! ## Lemmas about the line model and insertion -/

theorem lineToChar_le_length (l : List Char) : ∀ row, lineToChar l row ≤ l.length := by
  induction l with
  | nil => intro row; cases row <;> simp [lineToChar]
  | cons c rest ih =>
    intro row
    cases row with
    | zero => simp [lineToChar]
    | succ row =>
      unfold lineToChar
      by_cases hc : c = '\n'
      · have := ih row
        simp [hc]
        omega
      · have := ih (row + 1)
        simp [hc]
        omega

theorem lineToChar_mono (l : List Char) : ∀ row, lineToChar l row ≤ lineToChar l (row + 1) := by
  induction l with
  | nil => intro row; cases row <;> simp [lineToChar]
  | cons c rest ih =>
    intro row
    cases row with
    | zero =>
      show lineToChar (c :: rest) 0 ≤ _
      simp [lineToChar]
    | succ row =>
      show lineToChar (c :: rest) (row + 1) ≤ lineToChar (c :: rest) (row + 2)
      unfold lineToChar
      by_cases hc : c = '\n'
      · have := ih row
        simp [hc]
        omega
      · have := ih (row + 1)
        simp [hc]
        omega

theorem take_succ_of_lt {l : List Char} {p : Nat} (h : p < l.length) :
    l.take (p + 1) = l.take p ++ [charAt l p] := by
  rw [List.take_succ]
  congr 1
  rw [List.getElem?_eq_getElem h]
  simp [charAt, List.getD_eq_getElem?_getD, List.getElem?_eq_getElem h]

theorem count_newline_take_pos {l : List Char} {p : Nat} (h : p < l.length)
    (hc : charAt l p = '\n') : 1 ≤ (l.take (p + 1)).count '\n' := by
  rw [take_succ_of_lt h, hc]
  simp [List.count_append]

theorem lineToChar_after_newline {l : List Char} : ∀ {p : Nat}, p < l.length →
    charAt l p = '\n' → lineToChar l ((l.take (p + 1)).count '\n') = p + 1 := by
  induction l with
  | nil => intro p h; simp at h
  | cons c rest ih =>
    intro p h hc
    cases p with
    | zero =>
      have hcn : c = '\n' := by simpa [charAt] using hc
      subst hcn
      simp [lineToChar, List.count_cons]
    | succ p =>
      have hp : p < rest.length := by simpa using h
      have hcp : charAt rest p = '\n' := by simpa [charAt] using hc
      have hih := ih hp hcp
      have htake : (c :: rest).take (p + 2) = c :: rest.take (p + 1) := by simp
      rw [htake]
      by_cases hcn : c = '\n'
      · subst hcn
        rw [List.count_cons_self]
        unfold lineToChar
        simp [hih]
        omega
      · rw [List.count_cons_of_ne (Ne.symm hcn)]
        have hpos := count_newline_take_pos hp hcp
        obtain ⟨m, hm⟩ : ∃ m, (rest.take (p + 1)).count '\n' = m + 1 :=
          ⟨(rest.take (p + 1)).count '\n' - 1, by omega⟩
        rw [hm]
        unfold lineToChar
        simp only [if_neg hcn]
        rw [← hm, hih]
        omega

theorem insertAt_length {l : List Char} {p : Nat} (h : p ≤ l.length) (c : Char) :
    (insertAt l p c).length = l.length + 1 := by
  simp [insertAt]
  omega

theorem insertAt_take_succ {l : List Char} {p : Nat} (h : p ≤ l.length) (c : Char) :
    (insertAt l p c).take (p + 1) = l.take p ++ [c] := by
  unfold insertAt
  rw [List.take_append_eq_append_take]
  have h1 : (l.take p).length = p := by simp; omega
  rw [List.take_of_length_le (by omega), h1]
  simp

theorem charAt_insertAt {l : List Char} {p : Nat} (h : p ≤ l.length) (c : Char) :
    charAt (insertAt l p c) p = c := by
  unfold charAt insertAt
  have h1 : (l.take p).length = p := by simp; omega
  rw [List.getD_eq_getElem?_getD, List.getElem?_append_right (by omega)]
  simp [h1]

theorem isBreak_after_lf {l : List Char} {p : Nat} (h : p < l.length)
    (hc : charAt l p = '\n') : isBreak l (p + 1) = true := by
  unfold isBreak
  by_cases hend : l.length ≤ p + 1
  · simp [hend]
  · simp only [if_neg (by omega : ¬ p + 1 = 0), if_neg hend]
    rw [take_succ_of_lt h, hc]
    simp only [List.reverse_append, List.reverse_cons, List.reverse_nil, List.nil_append,
      List.cons_append, List.singleton_append]
    show breakBetween _ '\n' _ = true
    unfold breakBetween
    simp [gbp]

theorem absCharToLineGcol_fst (l : List Char) (ci : Nat) :
    (absCharToLineGcol l ci).1 = charToLine l ci := by
  unfold absCharToLineGcol
  by_cases hse : lineToChar l (charToLine l ci) = lineToChar l (charToLine l ci + 1) <;>
    simp [hse]

theorem absCharToLineGcol_line_start {l : List Char} {p : Nat}
    (hp : p = lineToChar l (charToLine l p)) :
    absCharToLineGcol l p = (charToLine l p, 0) := by
  unfold absCharToLineGcol
  by_cases hse : lineToChar l (charToLine l p) = lineToChar l (charToLine l p + 1)
  · simp [hse]
  · have hmono := lineToChar_mono l (charToLine l p)
    have heble := lineToChar_le_length l (charToLine l p + 1)
    have hplen : p < l.length := by omega
    have htb : max (lineToChar l (charToLine l p))
        (min p (lineToChar l (charToLine l p + 1))) = p := by omega
    simp only [if_neg hse, htb]
    have hnb := nextBoundary_gt hplen
    rw [← hp]
    show (charToLine l p, gcolAux l p (l.length + 1) p 0) = (charToLine l p, 0)
    unfold gcolAux
    simp only [if_neg (by omega : ¬ nextBoundary l p ≤ p), if_pos hnb]

/-! ## Concrete command sequences used by the claim analyses -/

/-- Insert each scalar of a string, in order, as the tests of src/editor.rs
do. -/
def typeStr (s : String) : List EditorCommand :=
  s.toList.map (fun c => EditorCommand.InsertChar c)

/-- Type a base letter, a line feed, and a combining acute accent (U+0301),
move left onto the start of the second row, and delete the line feed, which
merges the combining mark onto the base letter of the previous row. -/
def desyncCmds : List EditorCommand :=
  [.InsertChar 'e', .InsertChar '\n', .InsertChar (Char.ofNat 0x301),
   .MoveLeft, .Backspace]

/-- The state the editor reaches after `desyncCmds`. -/
def desyncState : Editor :=
  runCommands Editor.new desyncCmds

/-- C1: the dual-cursor invariant is violated by the state the code reaches
after `desyncCmds`: removing the line feed between a base letter and a
combining mark leaves the caret at absolute offset 1, in the middle of the
merged cluster, while the visual position snaps to (0, 0); converting the
visual position back gives 0, not the caret — the very equation the code
debug-asserts at the entry of the next command. -/
theorem c1_invariant_violated_after_backspace :
    desyncState = runCommands Editor.new desyncCmds ∧
    desyncState.text = ['e', Char.ofNat 0x301] ∧ desyncState.caret_abs = 1 ∧
    desyncState.cursor_row = 0 ∧ desyncState.cursor_gcol = 0 ∧
    lineGcolToAbsChar desyncState.text desyncState.cursor_row desyncState.cursor_gcol = 0 ∧
    absCharToLineGcol desyncState.text desyncState.caret_abs = (0, 0) := by
  decide

/-- C7: the caret offset 1 reached by `desyncCmds` is a reachable caret for
which the round trip fails: `abs_char_to_line_gcol` snaps the mid-cluster
offset down to (0, 0) and `line_gcol_to_abs_char` maps that back to 0, not
to the caret value 1. -/
theorem c7_roundtrip_violated :
    desyncState = runCommands Editor.new desyncCmds ∧
    desyncState.caret_abs = 1 ∧
    lineGcolToAbsChar desyncState.text
      (absCharToLineGcol desyncState.text desyncState.caret_abs).1
      (absCharToLineGcol desyncState.text desyncState.caret_abs).2 = 0 := by
  decide

/-- C2 counterexample: on the buffer "aaa(lf)b(lf)ccc", starting from
`(0, 3)`, the second of two consecutive `MoveDown`s overwrites the desired
column captured by the first (`some 3` becomes `some 2`), and the two
`MoveUp`s that follow restore column 2, not the original column 3 — the
desired column is not sticky across a vertical run. -/
theorem c2_counterexample :
    (runCommands Editor.new
        (typeStr "aaa\nb\nccc" ++ [.MoveUp, .MoveUp, .MoveRight, .MoveDown])).desired_gcol
      = some 3 ∧
    (runCommands Editor.new
        (typeStr "aaa\nb\nccc" ++
          [.MoveUp, .MoveUp, .MoveRight, .MoveDown, .MoveDown])).desired_gcol
      = some 2 ∧
    (runCommands Editor.new
        (typeStr "aaa\nb\nccc" ++
          [.MoveUp, .MoveUp, .MoveRight, .MoveDown, .MoveDown, .MoveUp,
           .MoveUp])).cursor_gcol = 2 := by
  decide

/-- C8 counterexample: a reachable state with caret 0 and a set desired
column (text "a(lf)b", cursor (0,0), `desired_gcol = some 0`) for which
`MoveLeft` does not return a state equal to the input: it clears the desired
column. -/
theorem c8_counterexample :
    let e5 := runCommands Editor.new (typeStr "a\nb" ++ [.MoveLeft, .MoveUp])
    e5.caret_abs = 0 ∧ e5.desired_gcol = some 0 ∧
    handleCommand e5 .MoveLeft ≠ e5 := by
  decide

/-- C10: Backspace with caret 0 and Delete with caret at the buffer length
leave buffer, caret and visual position unchanged but still clear the
desired column, while Quit and Unknown return the state untouched,
including a set desired column. -/
theorem c10_edge_noop_frame :
    (∀ e : Editor, e.caret_abs = 0 →
      handleCommand e .Backspace = { e with desired_gcol := none }) ∧
    (∀ e : Editor, e.caret_abs = e.text.length →
      handleCommand e .Delete = { e with desired_gcol := none }) ∧
    (∀ e : Editor, handleCommand e .Quit = e) ∧
    (∀ e : Editor, handleCommand e .Unknown = e) := by
  refine ⟨?_, ?_, fun e => rfl, fun e => rfl⟩
  · intro e h
    simp [handleCommand, h]
  · intro e h
    simp [handleCommand, h]

theorem c10_edge_noop_frame_witness :
    (Editor.new.caret_abs = 0 ∧
      handleCommand Editor.new .Backspace = { Editor.new with desired_gcol := none }) ∧
    (Editor.new.caret_abs = Editor.new.text.length ∧
      handleCommand Editor.new .Delete = { Editor.new with desired_gcol := none }) :=
  ⟨⟨rfl, c10_edge_noop_frame.1 Editor.new rfl⟩,
   ⟨rfl, c10_edge_noop_frame.2.1 Editor.new rfl⟩⟩

/-- C8 (amended): MoveUp on row 0 and MoveDown on the last row return the
input state exactly; MoveLeft at caret 0 and MoveRight at caret = buffer
length leave buffer, caret and (already-synchronised) visual position
unchanged but clear the desired column. -/
theorem c8_boundary_noops :
    (∀ e : Editor, e.cursor_row = 0 → handleCommand e .MoveUp = e) ∧
    (∀ e : Editor, lenLines e.text ≤ e.cursor_row + 1 → handleCommand e .MoveDown = e) ∧
    (∀ e : Editor, e.caret_abs = 0 →
      (e.cursor_row, e.cursor_gcol) = absCharToLineGcol e.text 0 →
      handleCommand e .MoveLeft = { e with desired_gcol := none }) ∧
    (∀ e : Editor, e.caret_abs = e.text.length →
      (e.cursor_row, e.cursor_gcol) = absCharToLineGcol e.text e.text.length →
      handleCommand e .MoveRight = { e with desired_gcol := none }) := by
  refine ⟨?_, ?_, ?_, ?_⟩
  · intro e h
    simp [handleCommand, h]
  · intro e h
    simp [handleCommand, Nat.not_lt.mpr h]
  · intro e h hsync
    have hprev : prevBoundary e.text 0 = 0 := rfl
    simp [handleCommand, Editor.syncVisualFromCaret, Editor.setCursorFromAbsChar, h, hprev,
      ← hsync]
  · intro e h hsync
    have hnext : nextBoundary e.text e.text.length = e.text.length :=
      nextBoundary_at_end le_rfl
    simp [handleCommand, Editor.syncVisualFromCaret, Editor.setCursorFromAbsChar, h, hnext,
      ← hsync]

theorem c8_boundary_noops_witness :
    (Editor.new.cursor_row = 0 ∧ handleCommand Editor.new .MoveUp = Editor.new) ∧
    (Editor.new.caret_abs = 0 ∧
      (Editor.new.cursor_row, Editor.new.cursor_gcol) = absCharToLineGcol Editor.new.text 0 ∧
      handleCommand Editor.new .MoveLeft = { Editor.new with desired_gcol := none }) :=
  ⟨⟨rfl, c8_boundary_noops.1 Editor.new rfl⟩,
   ⟨rfl, by decide, c8_boundary_noops.2.2.1 Editor.new rfl (by decide)⟩⟩

/-- C2 (amended): MoveUp with a prior row and MoveDown with a next row set
the desired column to the current column on every vertical move (overwriting
any previously captured value), change the row by one, clamp the column to
`min desired (grapheme count of the new row, a terminating line break
included)`, and recompute the caret from the new position; consequently a
vertical run through a shorter line does not in general restore the original
column. -/
theorem c2_vertical_moves (e : Editor) :
    (0 < e.cursor_row →
      handleCommand e .MoveUp =
        { e with
            desired_gcol := some e.cursor_gcol,
            cursor_row := e.cursor_row - 1,
            cursor_gcol :=
              min e.cursor_gcol (graphemeCount (lineSlice e.text (e.cursor_row - 1))),
            caret_abs :=
              lineGcolToAbsChar e.text (e.cursor_row - 1)
                (min e.cursor_gcol (graphemeCount (lineSlice e.text (e.cursor_row - 1)))) }) ∧
    (e.cursor_row + 1 < lenLines e.text →
      handleCommand e .MoveDown =
        { e with
            desired_gcol := some e.cursor_gcol,
            cursor_row := e.cursor_row + 1,
            cursor_gcol :=
              min e.cursor_gcol (graphemeCount (lineSlice e.text (e.cursor_row + 1))),
            caret_abs :=
              lineGcolToAbsChar e.text (e.cursor_row + 1)
                (min e.cursor_gcol (graphemeCount (lineSlice e.text (e.cursor_row + 1)))) }) := by
  constructor <;> intro h <;>
    simp [handleCommand, h, Editor.clampGcolOnRow, Editor.lineGcountEd,
      Editor.syncCaretFromVisual]

theorem c2_vertical_moves_witness :
    (0 < (runCommands Editor.new (typeStr "a\nb")).cursor_row) ∧
    handleCommand (runCommands Editor.new (typeStr "a\nb")) .MoveUp =
      { runCommands Editor.new (typeStr "a\nb") with
          desired_gcol := some (runCommands Editor.new (typeStr "a\nb")).cursor_gcol,
          cursor_row := (runCommands Editor.new (typeStr "a\nb")).cursor_row - 1,
          cursor_gcol :=
            min (runCommands Editor.new (typeStr "a\nb")).cursor_gcol
              (graphemeCount (lineSlice (runCommands Editor.new (typeStr "a\nb")).text
                ((runCommands Editor.new (typeStr "a\nb")).cursor_row - 1))),
          caret_abs :=
            lineGcolToAbsChar (runCommands Editor.new (typeStr "a\nb")).text
              ((runCommands Editor.new (typeStr "a\nb")).cursor_row - 1)
              (min (runCommands Editor.new (typeStr "a\nb")).cursor_gcol
                (graphemeCount (lineSlice (runCommands Editor.new (typeStr "a\nb")).text
                  ((runCommands Editor.new (typeStr "a\nb")).cursor_row - 1)))) } :=
  ⟨by decide, (c2_vertical_moves (runCommands Editor.new (typeStr "a\nb"))).1 (by decide)⟩

/-- C4: inserting a non-line-feed scalar inserts it at the caret and moves
the caret to the next grapheme boundary of the post-insertion buffer,
resynchronising the visual position and clearing the desired column; in
particular a base letter followed by a combining acute accent leaves
`gcol = 1` with the caret after the two-scalar cluster. -/
theorem c4_insert_non_newline :
    (∀ (e : Editor) (c : Char), c ≠ '\n' →
      handleCommand e (.InsertChar c) =
        { e with
            text := insertAt e.text e.caret_abs c,
            caret_abs := nextBoundary (insertAt e.text e.caret_abs c) e.caret_abs,
            cursor_row :=
              (absCharToLineGcol (insertAt e.text e.caret_abs c)
                (nextBoundary (insertAt e.text e.caret_abs c) e.caret_abs)).1,
            cursor_gcol :=
              (absCharToLineGcol (insertAt e.text e.caret_abs c)
                (nextBoundary (insertAt e.text e.caret_abs c) e.caret_abs)).2,
            desired_gcol := none }) ∧
    (runCommands Editor.new
      [.InsertChar 'e', .InsertChar (Char.ofNat 0x301)]).cursor_gcol = 1 ∧
    (runCommands Editor.new
      [.InsertChar 'e', .InsertChar (Char.ofNat 0x301)]).caret_abs = 2 ∧
    (runCommands Editor.new
      [.InsertChar 'e', .InsertChar (Char.ofNat 0x301)]).text.length = 2 := by
  refine ⟨?_, by decide, by decide, by decide⟩
  intro e c hc
  simp [handleCommand, hc, Editor.syncVisualFromCaret, Editor.setCursorFromAbsChar]

theorem c4_insert_non_newline_witness :
    ('x' : Char) ≠ '\n' ∧
    handleCommand Editor.new (.InsertChar 'x') =
      { Editor.new with
          text := insertAt Editor.new.text Editor.new.caret_abs 'x',
          caret_abs :=
            nextBoundary (insertAt Editor.new.text Editor.new.caret_abs 'x')
              Editor.new.caret_abs,
          cursor_row :=
            (absCharToLineGcol (insertAt Editor.new.text Editor.new.caret_abs 'x')
              (nextBoundary (insertAt Editor.new.text Editor.new.caret_abs 'x')
                Editor.new.caret_abs)).1,
          cursor_gcol :=
            (absCharToLineGcol (insertAt Editor.new.text Editor.new.caret_abs 'x')
              (nextBoundary (insertAt Editor.new.text Editor.new.caret_abs 'x')
                Editor.new.caret_abs)).2,
          desired_gcol := none } :=
  ⟨by decide, c4_insert_non_newline.1 Editor.new 'x' (by decide)⟩

/-- C5: with caret > 0, Backspace deletes exactly one unit before the caret —
a carriage-return/line-feed pair together when the scalar before the caret
is a line feed preceded by a carriage return, a lone line feed or lone
carriage return alone, and otherwise the whole previous grapheme cluster
(back to the previous boundary); the caret lands at the start of the deleted
range, the visual position is resynchronised from it, and the desired column
is cleared. -/
theorem c5_backspace (e : Editor) (h : 0 < e.caret_abs) :
    (charAt e.text (e.caret_abs - 1) = '\n' →
      2 ≤ e.caret_abs → charAt e.text (e.caret_abs - 2) = '\r' →
      handleCommand e .Backspace =
        { e with
            text := removeRange e.text (e.caret_abs - 2) e.caret_abs,
            caret_abs := e.caret_abs - 2,
            cursor_row :=
              (absCharToLineGcol (removeRange e.text (e.caret_abs - 2) e.caret_abs)
                (e.caret_abs - 2)).1,
            cursor_gcol :=
              (absCharToLineGcol (removeRange e.text (e.caret_abs - 2) e.caret_abs)
                (e.caret_abs - 2)).2,
            desired_gcol := none }) ∧
    (charAt e.text (e.caret_abs - 1) = '\n' →
      ¬(2 ≤ e.caret_abs ∧ charAt e.text (e.caret_abs - 2) = '\r') →
      handleCommand e .Backspace =
        { e with
            text := removeRange e.text (e.caret_abs - 1) e.caret_abs,
            caret_abs := e.caret_abs - 1,
            cursor_row :=
              (absCharToLineGcol (removeRange e.text (e.caret_abs - 1) e.caret_abs)
                (e.caret_abs - 1)).1,
            cursor_gcol :=
              (absCharToLineGcol (removeRange e.text (e.caret_abs - 1) e.caret_abs)
                (e.caret_abs - 1)).2,
            desired_gcol := none }) ∧
    (charAt e.text (e.caret_abs - 1) ≠ '\n' →
      charAt e.text (e.caret_abs - 1) = '\r' →
      handleCommand e .Backspace =
        { e with
            text := removeRange e.text (e.caret_abs - 1) e.caret_abs,
            caret_abs := e.caret_abs - 1,
            cursor_row :=
              (absCharToLineGcol (removeRange e.text (e.caret_abs - 1) e.caret_abs)
                (e.caret_abs - 1)).1,
            cursor_gcol :=
              (absCharToLineGcol (removeRange e.text (e.caret_abs - 1) e.caret_abs)
                (e.caret_abs - 1)).2,
            desired_gcol := none }) ∧
    (charAt e.text (e.caret_abs - 1) ≠ '\n' →
      charAt e.text (e.caret_abs - 1) ≠ '\r' →
      handleCommand e .Backspace =
        { e with
            text := removeRange e.text (prevBoundary e.text e.caret_abs) e.caret_abs,
            caret_abs := prevBoundary e.text e.caret_abs,
            cursor_row :=
              (absCharToLineGcol
                (removeRange e.text (prevBoundary e.text e.caret_abs) e.caret_abs)
                (prevBoundary e.text e.caret_abs)).1,
            cursor_gcol :=
              (absCharToLineGcol
                (removeRange e.text (prevBoundary e.text e.caret_abs) e.caret_abs)
                (prevBoundary e.text e.caret_abs)).2,
            desired_gcol := none }) := by
  refine ⟨?_, ?_, ?_, ?_⟩
  · intro h1 h2 h3
    simp [handleCommand, h, h1, h2, h3, Editor.syncVisualFromCaret,
      Editor.setCursorFromAbsChar]
  · intro h1 hn
    simp [handleCommand, h, h1, hn, Editor.syncVisualFromCaret, Editor.setCursorFromAbsChar]
  · intro h1 h2
    simp [handleCommand, h, h1, h2, Editor.syncVisualFromCaret, Editor.setCursorFromAbsChar]
  · intro h1 h2
    simp [handleCommand, h, h1, h2, Editor.syncVisualFromCaret, Editor.setCursorFromAbsChar]

theorem c5_backspace_witness :
    (0 < (runCommands Editor.new
        [.InsertChar 'e', .InsertChar (Char.ofNat 0x301)]).caret_abs) ∧
    (handleCommand (runCommands Editor.new
        [.InsertChar 'e', .InsertChar (Char.ofNat 0x301)]) .Backspace).text = [] ∧
    (handleCommand (runCommands Editor.new
        [.InsertChar 'e', .InsertChar (Char.ofNat 0x301)]) .Backspace).caret_abs = 0 := by
  have hall := c5_backspace (runCommands Editor.new
    [.InsertChar 'e', .InsertChar (Char.ofNat 0x301)]) (by decide)
  have hres := hall.2.2.2 (by decide) (by decide)
  refine ⟨by decide, ?_, ?_⟩
  · rw [hres]
    decide
  · rw [hres]
    decide

/-- C6: with caret < buffer length, Delete removes exactly one unit starting
at the caret — a lone line feed, a carriage-return/line-feed pair as one
unit, a lone carriage return, and otherwise the next full grapheme cluster
(up to the next boundary) — leaving the caret's absolute offset unchanged,
recomputing the visual position, and clearing the desired column. -/
theorem c6_delete (e : Editor) (h : e.caret_abs < e.text.length) :
    (charAt e.text e.caret_abs = '\n' →
      handleCommand e .Delete =
        { e with
            text := removeRange e.text e.caret_abs (e.caret_abs + 1),
            cursor_row :=
              (absCharToLineGcol (removeRange e.text e.caret_abs (e.caret_abs + 1))
                e.caret_abs).1,
            cursor_gcol :=
              (absCharToLineGcol (removeRange e.text e.caret_abs (e.caret_abs + 1))
                e.caret_abs).2,
            desired_gcol := none }) ∧
    (charAt e.text e.caret_abs = '\r' →
      e.caret_abs + 1 < e.text.length → charAt e.text (e.caret_abs + 1) = '\n' →
      handleCommand e .Delete =
        { e with
            text := removeRange e.text e.caret_abs (e.caret_abs + 2),
            cursor_row :=
              (absCharToLineGcol (removeRange e.text e.caret_abs (e.caret_abs + 2))
                e.caret_abs).1,
            cursor_gcol :=
              (absCharToLineGcol (removeRange e.text e.caret_abs (e.caret_abs + 2))
                e.caret_abs).2,
            desired_gcol := none }) ∧
    (charAt e.text e.caret_abs = '\r' →
      ¬(e.caret_abs + 1 < e.text.length ∧ charAt e.text (e.caret_abs + 1) = '\n') →
      handleCommand e .Delete =
        { e with
            text := removeRange e.text e.caret_abs (e.caret_abs + 1),
            cursor_row :=
              (absCharToLineGcol (removeRange e.text e.caret_abs (e.caret_abs + 1))
                e.caret_abs).1,
            cursor_gcol :=
              (absCharToLineGcol (removeRange e.text e.caret_abs (e.caret_abs + 1))
                e.caret_abs).2,
            desired_gcol := none }) ∧
    (charAt e.text e.caret_abs ≠ '\n' → charAt e.text e.caret_abs ≠ '\r' →
      handleCommand e .Delete =
        { e with
            text := removeRange e.text e.caret_abs (nextBoundary e.text e.caret_abs),
            cursor_row :=
              (absCharToLineGcol
                (removeRange e.text e.caret_abs (nextBoundary e.text e.caret_abs))
                e.caret_abs).1,
            cursor_gcol :=
              (absCharToLineGcol
                (removeRange e.text e.caret_abs (nextBoundary e.text e.caret_abs))
                e.caret_abs).2,
            desired_gcol := none }) := by
  refine ⟨?_, ?_, ?_, ?_⟩
  · intro h1
    simp [handleCommand, h, h1, Editor.syncVisualFromCaret, Editor.setCursorFromAbsChar]
  · intro h1 h2 h3
    have h1' : charAt e.text e.caret_abs ≠ '\n' := by
      rw [h1]
      decide
    simp [handleCommand, h, h1, h1', h2, h3, Editor.syncVisualFromCaret,
      Editor.setCursorFromAbsChar]
  · intro h1 hn
    have h1' : charAt e.text e.caret_abs ≠ '\n' := by
      rw [h1]
      decide
    simp [handleCommand, h, h1, h1', hn, Editor.syncVisualFromCaret,
      Editor.setCursorFromAbsChar]
  · intro h1 h2
    have hgt := nextBoundary_gt h
    simp [handleCommand, h, h1, h2, hgt, Editor.syncVisualFromCaret,
      Editor.setCursorFromAbsChar]

/-- The CRLF test state of the spec: buffer "foo(cr)(lf)bar" with the caret
immediately before the carriage return. -/
def crlfEd : Editor :=
  { cursor_row := 0
    cursor_gcol := 3
    desired_gcol := none
    text := "foo\r\nbar".toList
    caret_abs := 3
    mode := .Insert }

theorem c6_delete_witness :
    (crlfEd.caret_abs < crlfEd.text.length) ∧
    (handleCommand crlfEd .Delete).text = "foobar".toList ∧
    (handleCommand crlfEd .Delete).caret_abs = 3 ∧
    (handleCommand crlfEd .Delete).cursor_row = 0 ∧
    (handleCommand crlfEd .Delete).cursor_gcol = 3 := by
  have hall := c6_delete crlfEd (by decide)
  have hres := hall.2.1 (by decide) (by decide) (by decide)
  exact ⟨by decide, by rw [hres]; decide, by rw [hres]; decide, by rw [hres]; decide,
    by rw [hres]; decide⟩

/-- C3: inserting a line feed puts it at the caret and unconditionally moves
the caret to the first position (`gcol = 0`) of the following row — the new
caret is exactly one past the insertion point and coincides with the line
start of the new row, regardless of the surrounding scalars — and a
character typed immediately afterwards is inserted at that row-start
position; from an empty buffer, a line feed followed by `X` yields row 1
content "X" with `gcol = 1`. -/
theorem c3_insert_newline :
    (∀ e : Editor, e.caret_abs ≤ e.text.length →
      (handleCommand e (.InsertChar '\n')).text = insertAt e.text e.caret_abs '\n' ∧
      (handleCommand e (.InsertChar '\n')).caret_abs = e.caret_abs + 1 ∧
      (handleCommand e (.InsertChar '\n')).cursor_row = charToLine e.text e.caret_abs + 1 ∧
      (handleCommand e (.InsertChar '\n')).cursor_gcol = 0 ∧
      lineToChar (insertAt e.text e.caret_abs '\n')
        (handleCommand e (.InsertChar '\n')).cursor_row = e.caret_abs + 1 ∧
      (handleCommand e (.InsertChar '\n')).desired_gcol = none ∧
      ∀ c : Char,
        (handleCommand (handleCommand e (.InsertChar '\n')) (.InsertChar c)).text =
          insertAt (insertAt e.text e.caret_abs '\n') (e.caret_abs + 1) c) ∧
    (runCommands Editor.new [.InsertChar '\n', .InsertChar 'X']).cursor_row = 1 ∧
    (runCommands Editor.new [.InsertChar '\n', .InsertChar 'X']).cursor_gcol = 1 ∧
    lineSlice (runCommands Editor.new [.InsertChar '\n', .InsertChar 'X']).text 1 = ['X'] := by
  refine ⟨?_, by decide, by decide, by decide⟩
  intro e h
  have hlen : (insertAt e.text e.caret_abs '\n').length = e.text.length + 1 :=
    insertAt_length h '\n'
  have hplen : e.caret_abs < (insertAt e.text e.caret_abs '\n').length := by omega
  have hchar : charAt (insertAt e.text e.caret_abs '\n') e.caret_abs = '\n' :=
    charAt_insertAt h '\n'
  have hb := isBreak_after_lf hplen hchar
  have hnext : nextBoundary (insertAt e.text e.caret_abs '\n') e.caret_abs =
      e.caret_abs + 1 := nextBoundary_of_isBreak hplen hb
  have hcount : ((insertAt e.text e.caret_abs '\n').take (e.caret_abs + 1)).count '\n' =
      charToLine e.text e.caret_abs + 1 := by
    rw [insertAt_take_succ h]
    simp [charToLine, List.count_append]
  have hlinestart : e.caret_abs + 1 =
      lineToChar (insertAt e.text e.caret_abs '\n')
        (charToLine (insertAt e.text e.caret_abs '\n') (e.caret_abs + 1)) := by
    have := lineToChar_after_newline hplen hchar
    unfold charToLine
    exact this.symm
  have hvis : absCharToLineGcol (insertAt e.text e.caret_abs '\n') (e.caret_abs + 1) =
      (charToLine (insertAt e.text e.caret_abs '\n') (e.caret_abs + 1), 0) :=
    absCharToLineGcol_line_start hlinestart
  have hcmd : handleCommand e (.InsertChar '\n') =
      { e with
          text := insertAt e.text e.caret_abs '\n',
          caret_abs := e.caret_abs + 1,
          cursor_row :=
            (absCharToLineGcol (insertAt e.text e.caret_abs '\n') (e.caret_abs + 1)).1,
          cursor_gcol :=
            (absCharToLineGcol (insertAt e.text e.caret_abs '\n') (e.caret_abs + 1)).2,
          desired_gcol := none } := by
    simp [handleCommand, Editor.syncVisualFromCaret, Editor.setCursorFromAbsChar, hnext]
  have hrow : charToLine (insertAt e.text e.caret_abs '\n') (e.caret_abs + 1) =
      charToLine e.text e.caret_abs + 1 := hcount
  refine ⟨by rw [hcmd], by rw [hcmd], ?_, ?_, ?_, by rw [hcmd], ?_⟩
  · rw [hcmd]
    show (absCharToLineGcol _ _).1 = _
    rw [hvis, hrow]
  · rw [hcmd]
    show (absCharToLineGcol _ _).2 = 0
    rw [hvis]
  · rw [hcmd]
    show lineToChar _ (absCharToLineGcol _ _).1 = _
    rw [hvis]
    exact hlinestart.symm
  · intro c
    rw [hcmd]
    by_cases hc : c = '\n' <;>
      simp [handleCommand, hc, Editor.syncVisualFromCaret, Editor.setCursorFromAbsChar]

theorem c3_insert_newline_witness :
    (Editor.new.caret_abs ≤ Editor.new.text.length) ∧
    (handleCommand Editor.new (.InsertChar '\n')).caret_abs = Editor.new.caret_abs + 1 ∧
    (handleCommand Editor.new (.InsertChar '\n')).cursor_gcol = 0 := by
  have hall := c3_insert_newline.1 Editor.new (by decide)
  exact ⟨by decide, hall.2.1, hall.2.2.2.1⟩

/-- C9: over any chunk decomposition of the buffer, in either direction, the
chunk-resolution traversal of `step_grapheme_bound` terminates — modelled by
the structural descent over the chunk list, which is exactly the monotone
chunk progression of the source loop — and lands on the flat buffer's
boundary step: a definite grapheme boundary or a buffer extreme (0 or the
total length), with strict progress away from any interior starting
offset. -/
theorem c9_chunk_loop (chunks : List (List Char)) (i : Nat)
    (h : i ≤ chunks.flatten.length) :
    (chunkedNext chunks i = nextBoundary chunks.flatten i ∧
      isBreak chunks.flatten (chunkedNext chunks i) = true ∧
      (i < chunks.flatten.length → i < chunkedNext chunks i) ∧
      (chunks.flatten.length ≤ i → chunkedNext chunks i = chunks.flatten.length)) ∧
    (chunkedPrev chunks i = prevBoundary chunks.flatten i ∧
      isBreak chunks.flatten (chunkedPrev chunks i) = true ∧
      (0 < i → chunkedPrev chunks i < i)) := by
  have hn := chunkedNext_eq chunks i
  have hp := chunkedPrev_eq chunks h
  refine ⟨⟨hn, ?_, ?_, ?_⟩, hp, ?_, ?_⟩
  · rw [hn]
    exact isBreak_nextBoundary _ _
  · intro hlt
    rw [hn]
    exact nextBoundary_gt hlt
  · intro hge
    rw [hn]
    exact nextBoundary_at_end hge
  · rw [hp]
    unfold prevBoundary
    exact (findDown_spec _ _).1
  · intro hpos
    rw [hp]
    exact prevBoundary_le hpos

theorem c9_chunk_loop_witness :
    (2 ≤ ([['a'], ['b', '\n'], ['c']] : List (List Char)).flatten.length) ∧
    chunkedNext [['a'], ['b', '\n'], ['c']] 2 =
      nextBoundary ([['a'], ['b', '\n'], ['c']] : List (List Char)).flatten 2 ∧
    chunkedPrev [['a'], ['b', '\n'], ['c']] 2 =
      prevBoundary ([['a'], ['b', '\n'], ['c']] : List (List Char)).flatten 2 := by
  have hall := c9_chunk_loop [['a'], ['b', '\n'], ['c']] 2 (by decide)
  exact ⟨by decide, hall.1.1, hall.2.1⟩

end Mters
